import Mathlib

/-!
Verification of the two-level chunked slot allocator (`ChunkyQueue.rs`) and the
array-scan allocator with its foreign-value adapter (`Python2RustTypes.rs`).

The Rust code is shallowly embedded: `VecDeque` becomes a `List` whose head is
the front (`pop_front` = head, `push_back` = append), the fixed slot array
becomes a `List (Option Value)` of length `CHUNK_SIZE`, and the `bit_set::BitSet`
of free chunk positions becomes a strictly sorted `List Nat` (a `BitSet` is a
set of naturals whose iterator yields members in ascending order, so
`iter().next()` is the head of that sorted list).  The process-wide mutex-held
globals `CHUNKS`/`FREE_CHUNKS` become an explicit `PoolState` threaded through
the operations; `allocate_value` returns `Option` with `none` marking its panic
branches (the out-of-range index into `chunks` and the `unwrap` of
`Chunk::allocate`).
-/

/-- Payload type: both source files declare `type Value = i32`.  The allocator
never computes with payloads, so the 32-bit integer is embedded as `Int`; the
one place a genuine `i32` bound matters (the pyo3 `extract::<i32>` call and the
`usize as i32` cast in `Python2RustTypes.rs`) models the bound explicitly. -/
abbrev Value : Type := Int

namespace ChunkyQueue

/-- `const CHUNK_SIZE: usize = 64` from `ChunkyQueue.rs`. -/
def CHUNK_SIZE : Nat := 64

/-- A chunk of storage: fixed-size array of optional values plus the FIFO queue
of free slot indices (`struct Chunk` in `ChunkyQueue.rs`). -/
structure Chunk where
  values : List (Option Value)
  free_indices : List Nat
deriving DecidableEq

/-- `Chunk::new`: all slots unoccupied, free queue `0..CHUNK_SIZE`. -/
def Chunk.new : Chunk :=
  { values := List.replicate CHUNK_SIZE none
    free_indices := List.range CHUNK_SIZE }

/-- `Chunk::allocate`: pop the front of the free queue; if a position comes out,
store the value there and return it.  The first component is the Rust return
value, the second the mutated chunk. -/
def Chunk.allocate (c : Chunk) (value : Value) : Option Nat × Chunk :=
  match c.free_indices with
  | [] => (none, c)
  | index :: rest =>
      (some index, { values := c.values.set index (some value), free_indices := rest })

/-- `Chunk::deallocate`: if the index is in bounds, clear the slot and push the
index on the back of the free queue; otherwise do nothing. -/
def Chunk.deallocate (c : Chunk) (index : Nat) : Chunk :=
  if index < CHUNK_SIZE then
    { values := c.values.set index none, free_indices := c.free_indices ++ [index] }
  else c

/-- `Chunk::has_free_slot`: the free queue is non-empty. -/
def Chunk.has_free_slot (c : Chunk) : Bool :=
  !c.free_indices.isEmpty

/-- The two process-wide globals of `ChunkyQueue.rs`, threaded explicitly:
`CHUNKS` (the chunk pool) and `FREE_CHUNKS` (the BitSet of chunk positions with
spare room, kept as its ascending iteration order). -/
structure PoolState where
  chunks : List Chunk
  free_chunks : List Nat
deriving DecidableEq

/-- The initial state: both globals start empty. -/
def emptyPool : PoolState :=
  { chunks := [], free_chunks := [] }

/-- `BitSet::insert` on the ascending member list: place `i` at its sorted
position, keeping members distinct (inserting a present member is a no-op). -/
def bsInsert (i : Nat) : List Nat → List Nat
  | [] => [i]
  | j :: rest =>
      if i < j then i :: j :: rest
      else if i = j then j :: rest
      else j :: bsInsert i rest

/-- `BitSet::remove` on the ascending member list: drop every occurrence of `i`. -/
def bsRemove (i : Nat) (l : List Nat) : List Nat :=
  l.filter (fun j => j != i)

/-- The tail of `allocate_value` after the chunk position has been picked:
`chunks[chunk_index]` (panic → `none` if out of range), `chunk.allocate(value)`
with its `unwrap` (panic → `none` if the chunk was full), then removal of the
chunk from `FREE_CHUNKS` if it became full. -/
def allocFrom (s : PoolState) (chunk_index : Nat) (value : Value) :
    Option ((Nat × Nat) × PoolState) :=
  match s.chunks[chunk_index]? with
  | none => none
  | some chunk =>
      match chunk.allocate value with
      | (none, _) => none
      | (some value_index, chunk') =>
          some ((chunk_index, value_index),
            { chunks := s.chunks.set chunk_index chunk'
              free_chunks :=
                if chunk'.has_free_slot then s.free_chunks
                else bsRemove chunk_index s.free_chunks })

/-- `allocate_value` from `ChunkyQueue.rs`: take the first member of the
Free-Chunk Index (`free_chunks.iter().next()`), or — `unwrap_or_else` — push a
fresh chunk, register its position in the index and use that position. -/
def allocate_value (value : Value) (s : PoolState) : Option ((Nat × Nat) × PoolState) :=
  match s.free_chunks.head? with
  | some chunk_index => allocFrom s chunk_index value
  | none =>
      allocFrom
        { chunks := s.chunks ++ [Chunk.new]
          free_chunks := bsInsert s.chunks.length s.free_chunks }
        s.chunks.length value

/-- `deallocate_value` from `ChunkyQueue.rs`: if the chunk position is in
bounds, delegate to `Chunk::deallocate` and re-register the chunk in the
Free-Chunk Index when it now has room; otherwise do nothing. -/
def deallocate_value (chunk_index value_index : Nat) (s : PoolState) : PoolState :=
  match s.chunks[chunk_index]? with
  | none => s
  | some chunk =>
      let chunk' := chunk.deallocate value_index
      { chunks := s.chunks.set chunk_index chunk'
        free_chunks :=
          if chunk'.has_free_slot then bsInsert chunk_index s.free_chunks
          else s.free_chunks }

/-- Run `n` consecutive `allocate_value` calls (all with the same payload, which
never influences control flow), collecting the returned handles; `none` if any
call hits a panic branch. -/
def allocMany (n : Nat) (value : Value) (s : PoolState) :
    Option (List (Nat × Nat) × PoolState) :=
  match n with
  | 0 => some ([], s)
  | n + 1 =>
      (allocate_value value s).bind fun p =>
        (allocMany n value p.2).bind fun q => some (p.1 :: q.1, q.2)

/-- Run `n` consecutive `Chunk::allocate` calls on one chunk, collecting the
returned positions (allocation stops contributing once the chunk is full). -/
def Chunk.allocList (c : Chunk) (n : Nat) (value : Value) : List Nat × Chunk :=
  match n with
  | 0 => ([], c)
  | n + 1 =>
      match c.allocate value with
      | (none, c') => ([], c')
      | (some i, c') =>
          let r := c'.allocList n value
          (i :: r.1, r.2)

/-- The contents of slot `value_index` of chunk `chunk_index`: `none` when the
handle is out of range, otherwise the `Option Value` stored in the slot. -/
def slotAt (s : PoolState) (chunk_index value_index : Nat) : Option (Option Value) :=
  s.chunks[chunk_index]?.bind fun c => c.values[value_index]?

/-- A handle is live (aliases an occupied slot) when its slot holds a value. -/
def occupiedAtB (s : PoolState) (chunk_index value_index : Nat) : Bool :=
  ((slotAt s chunk_index value_index).getD none).isSome

/-- No handle in the list aliases a slot that is occupied in state `s`. -/
def noneLiveIn (s : PoolState) (hs : List (Nat × Nat)) : Bool :=
  hs.all fun h => !occupiedAtB s h.1 h.2

/-- The chunk at a position currently has at least one empty slot. -/
def chunkHasEmptyB (s : PoolState) (chunk_index : Nat) : Bool :=
  match s.chunks[chunk_index]? with
  | some c => c.values.any fun o => o.isNone
  | none => false

/-- The chunk position component of the handle `allocate_value` would return. -/
def pickedChunk (value : Value) (s : PoolState) : Option Nat :=
  (allocate_value value s).map fun r => r.1.1

/-- Number of slot positions of a chunk currently holding a value (the spec's
`occupied_count`; the slot array always has length `CHUNK_SIZE`). -/
def Chunk.occupiedCount (c : Chunk) : Nat :=
  ((List.range CHUNK_SIZE).filter fun i => (c.values.getD i none).isSome).length

/-- States reachable from the empty pool by any sequence of `allocate_value`
and `deallocate_value` calls, with arbitrary — possibly stale, repeated or
out-of-range — handles passed to `deallocate_value`.  An allocation step exists
only when the call returns (a panicking call has no successor state). -/
inductive Reach : PoolState → Prop
  | init : Reach emptyPool
  | alloc {s : PoolState} {v : Value} {h : Nat × Nat} {s' : PoolState} :
      Reach s → allocate_value v s = some (h, s') → Reach s'
  | dealloc {s : PoolState} (ci vi : Nat) :
      Reach s → Reach (deallocate_value ci vi s)

/-- States reachable from the empty pool when callers follow the handle
protocol: `deallocate_value` is only invoked on a handle whose slot is
currently occupied (each handle released at most once while live). -/
inductive ValidReach : PoolState → Prop
  | init : ValidReach emptyPool
  | alloc {s : PoolState} {v : Value} {h : Nat × Nat} {s' : PoolState} :
      ValidReach s → allocate_value v s = some (h, s') → ValidReach s'
  | dealloc {s : PoolState} (ci vi : Nat) :
      ValidReach s → occupiedAtB s ci vi = true → ValidReach (deallocate_value ci vi s)

/-- Chunk states reachable from `Chunk::new` by any sequence of
`Chunk::allocate` / `Chunk::deallocate` calls with arbitrary positions. -/
inductive ChunkReach : Chunk → Prop
  | init : ChunkReach Chunk.new
  | alloc {c : Chunk} (v : Value) : ChunkReach c → ChunkReach (c.allocate v).2
  | dealloc {c : Chunk} (i : Nat) : ChunkReach c → ChunkReach (c.deallocate i)

/-- Chunk states reachable from `Chunk::new` when `Chunk::deallocate` is only
invoked on a position whose slot is currently occupied. -/
inductive ValidChunkReach : Chunk → Prop
  | init : ValidChunkReach Chunk.new
  | alloc {c : Chunk} (v : Value) : ValidChunkReach c → ValidChunkReach (c.allocate v).2
  | dealloc {c : Chunk} {i : Nat} {v : Value} :
      ValidChunkReach c → c.values[i]? = some (some v) →
      ValidChunkReach (c.deallocate i)

/-! ### Invariants -/

/-- Basic well-formedness of a chunk, maintained by arbitrary call sequences:
the slot array keeps its fixed size and the free queue only holds in-range
positions. -/
structure ChunkWF (c : Chunk) : Prop where
  len64 : c.values.length = CHUNK_SIZE
  inRange : ∀ i ∈ c.free_indices, i < CHUNK_SIZE

/-- Pool-level invariant maintained by arbitrary call sequences (including
stale and repeated deallocations): the Free-Chunk Index only holds in-bounds
positions in ascending order, every indexed chunk has a non-empty free queue,
and every chunk with a non-empty free queue is indexed. -/
structure PoolWF (s : PoolState) : Prop where
  bounded : ∀ ci ∈ s.free_chunks, ci < s.chunks.length
  sorted : s.free_chunks.Pairwise (· < ·)
  wf : ∀ c ∈ s.chunks, ChunkWF c
  memNonempty : ∀ (ci : Nat) (c : Chunk), ci ∈ s.free_chunks →
    s.chunks[ci]? = some c → c.free_indices ≠ []
  nonemptyMem : ∀ (ci : Nat) (c : Chunk), s.chunks[ci]? = some c →
    c.free_indices ≠ [] → ci ∈ s.free_chunks

/-- Full chunk invariant, maintained only when deallocation respects the
handle protocol: the free queue is duplicate-free and holds exactly the
in-range positions whose slot is empty. -/
structure ChunkFull (c : Chunk) : Prop where
  len64 : c.values.length = CHUNK_SIZE
  nodup : c.free_indices.Nodup
  memIff : ∀ i, i ∈ c.free_indices ↔ (i < CHUNK_SIZE ∧ c.values[i]? = some none)

/-- Full pool invariant under the handle protocol. -/
structure PoolFull (s : PoolState) : Prop where
  wf : PoolWF s
  full : ∀ (ci : Nat) (c : Chunk), s.chunks[ci]? = some c → ChunkFull c

/-! ### Concrete states used by counterexamples and witnesses -/

/-- The pool after a single `allocate_value(0)` from the empty pool. -/
def poolA : PoolState :=
  ((allocate_value 0 emptyPool).map Prod.snd).getD emptyPool

/-- The pool after additionally deallocating the handle `(0, 0)` twice — a
double free the facade accepts silently.  Chunk 0's free queue now holds the
position 0 twice. -/
def c1state : PoolState :=
  deallocate_value 0 0 (deallocate_value 0 0 poolA)

/-- The handles returned by 64 further allocations from `c1state`. -/
def c2handles : List (Nat × Nat) :=
  ((List.range 63).map fun i => (0, i + 1)) ++ [(0, 0)]

/-- The pool after 64 further allocations from `c1state`: every slot of chunk
0 is occupied, yet the duplicated queue entry keeps chunk 0 in the Free-Chunk
Index. -/
def c2state : PoolState :=
  ((allocMany 64 0 c1state).map Prod.snd).getD emptyPool

/-- The pool after two allocations from the empty pool. -/
def c1wit_s : PoolState :=
  ((allocMany 2 0 emptyPool).map Prod.snd).getD emptyPool

/-- The pool after 64 allocations from the empty pool (chunk 0 full). -/
def scen64 : PoolState :=
  ((allocMany 64 7 emptyPool).map Prod.snd).getD emptyPool

/-- The pool after the 65th allocation (second chunk created). -/
def scen65 : PoolState :=
  ((allocate_value 7 scen64).map Prod.snd).getD emptyPool

/-- The pool after deallocating handle `(0, 5)` of the full chunk 0. -/
def scen66 : PoolState :=
  deallocate_value 0 5 scen65

end ChunkyQueue

namespace Python2RustTypes

/-- The global `ARRAY` of `Python2RustTypes.rs`: a growable vector of
`(value, usage indicator)` pairs, threaded explicitly. -/
abbrev ArrState := List (Value × Bool)

/-- `allocate_value` from `Python2RustTypes.rs`: scan for the first slot whose
usage indicator is false, overwrite it and mark it used; if none exists,
append a new used slot.  Returns the slot index.  The Rust `for` loop over
`iter_mut().enumerate()` is rendered as structural recursion: an index of a
used head shifts the recursive result by one. -/
def allocate_value (value : Value) : ArrState → Nat × ArrState
  | [] => (0, [(value, true)])
  | (w, used) :: rest =>
      if used then
        ((allocate_value value rest).1 + 1, (w, used) :: (allocate_value value rest).2)
      else (0, (value, true) :: rest)

/-- `deallocate_value` from `Python2RustTypes.rs`: mark the slot unused if the
index is in bounds, otherwise do nothing. -/
def deallocate_value (index : Nat) (a : ArrState) : ArrState :=
  match a[index]? with
  | none => a
  | some slot => a.set index (slot.1, false)

/-- Model of the dynamically typed foreign value (`&PyAny`): a text value
(arbitrary valid unicode), an integer value (Python integers are unbounded),
or a value of any other type. -/
inductive PyObject
  | pyStr (s : String)
  | pyInt (n : Int)
  | other
deriving DecidableEq

/-- The two error kinds the adapter can surface: the explicit
`PyTypeError("Unsupported type")`, and the overflow error pyo3 raises when
`extract::<i32>` is applied to an integer outside the `i32` range. -/
inductive PyErr
  | typeError (msg : String)
  | overflowError
deriving DecidableEq

/-- The `usize as i32` cast applied to the string length: two's-complement
truncation to 32 bits. -/
def usize_as_i32 (n : Nat) : Int :=
  if n % 2 ^ 32 < 2 ^ 31 then ((n % 2 ^ 32 : Nat) : Int)
  else ((n % 2 ^ 32 : Nat) : Int) - 2 ^ 32

/-- The signed 32-bit range check pyo3 performs when extracting an `i32`. -/
def fits_i32 (n : Int) : Prop :=
  -(2 ^ 31) ≤ n ∧ n < 2 ^ 31

instance (n : Int) : Decidable (fits_i32 n) :=
  inferInstanceAs (Decidable (_ ∧ _))

/-- pyo3 `obj.extract::<i32>()` on an integer: succeeds exactly when the value
fits in a signed 32-bit integer, otherwise raises an overflow error. -/
def extract_i32 (n : Int) : Except PyErr Value :=
  if fits_i32 n then Except.ok n else Except.error PyErr.overflowError

/-- `handle_pyobject` from `Python2RustTypes.rs`: text stores the length of its
UTF-8 encoding (Rust `str::len`) cast to `i32`; an integer stores itself via
`extract::<i32>` (whose failure propagates through `?`); anything else raises
`PyTypeError("Unsupported type")`.  On success the allocated index and the
updated array are returned; on error the array is untouched. -/
def handle_pyobject (obj : PyObject) (a : ArrState) : Except PyErr (Nat × ArrState) :=
  match obj with
  | .pyStr s => Except.ok (allocate_value (usize_as_i32 s.utf8ByteSize) a)
  | .pyInt n =>
      match extract_i32 n with
      | .ok v => Except.ok (allocate_value v a)
      | .error e => Except.error e
  | .other => Except.error (PyErr.typeError "Unsupported type")

/-- The types `handle_pyobject` accepts: any text, and integers that fit
in `i32`. -/
def accepts : PyObject → Bool
  | .pyStr _ => true
  | .pyInt n => decide (fits_i32 n)
  | .other => false

/-- The `Value` a recognized foreign value is mapped to before allocation. -/
def mappedValue : PyObject → Option Value
  | .pyStr s => some (usize_as_i32 s.utf8ByteSize)
  | .pyInt n => if fits_i32 n then some n else none
  | .other => none

/-- The slot the handle returned by `handle_pyobject` points at, `none` when
the call fails. -/
def storedSlot (obj : PyObject) (a : ArrState) : Option (Value × Bool) :=
  match handle_pyobject obj a with
  | .ok (i, a') => a'[i]?
  | .error _ => none

end Python2RustTypes

namespace ChunkyQueue

/-! ### Helper lemmas about the BitSet model and lists -/

theorem mem_bsInsert {a i : Nat} {l : List Nat} :
    a ∈ bsInsert i l ↔ a = i ∨ a ∈ l := by
  induction l with
  | nil => simp [bsInsert]
  | cons j rest ih =>
      by_cases h1 : i < j
      · simp [bsInsert, h1]
      · by_cases h2 : i = j
        · subst h2
          simp only [bsInsert, if_neg h1, if_pos rfl]
          constructor
          · exact Or.inr
          · rintro (rfl | h)
            · exact List.mem_cons_self _ _
            · exact h
        · simp only [bsInsert, if_neg h1, if_neg h2, List.mem_cons, ih]
          tauto

theorem bsInsert_pairwise {i : Nat} {l : List Nat} (h : l.Pairwise (· < ·)) :
    (bsInsert i l).Pairwise (· < ·) := by
  induction l with
  | nil => simp [bsInsert]
  | cons j rest ih =>
      rcases List.pairwise_cons.mp h with ⟨hj, hrest⟩
      by_cases h1 : i < j
      · simp only [bsInsert, if_pos h1]
        refine List.pairwise_cons.mpr ⟨?_, h⟩
        intro x hx
        rcases List.mem_cons.mp hx with rfl | hx
        · exact h1
        · exact h1.trans (hj x hx)
      · by_cases h2 : i = j
        · subst h2
          simp only [bsInsert, if_neg h1, if_pos rfl]
          exact h
        · have hji : j < i := by omega
          simp only [bsInsert, if_neg h1, if_neg h2]
          refine List.pairwise_cons.mpr ⟨?_, ih hrest⟩
          intro x hx
          rcases mem_bsInsert.mp hx with rfl | hx
          · exact hji
          · exact hj x hx

theorem bsInsert_of_mem {i : Nat} {l : List Nat} (hs : l.Pairwise (· < ·))
    (h : i ∈ l) : bsInsert i l = l := by
  induction l with
  | nil => simp at h
  | cons j rest ih =>
      rcases List.pairwise_cons.mp hs with ⟨hj, hrest⟩
      rcases List.mem_cons.mp h with rfl | h
      · simp [bsInsert]
      · have hji : j < i := hj i h
        have h1 : ¬ i < j := by omega
        have h2 : ¬ i = j := by omega
        simp [bsInsert, h1, h2, ih hrest h]

theorem mem_bsRemove {a i : Nat} {l : List Nat} :
    a ∈ bsRemove i l ↔ a ∈ l ∧ a ≠ i := by
  simp [bsRemove, List.mem_filter]

theorem bsRemove_pairwise {i : Nat} {l : List Nat} (h : l.Pairwise (· < ·)) :
    (bsRemove i l).Pairwise (· < ·) :=
  List.Pairwise.sublist (List.filter_sublist l) h

theorem list_set_self {α : Type} {l : List α} {i : Nat} {x : α}
    (h : l[i]? = some x) : l.set i x = l := by
  induction l generalizing i with
  | nil => simp at h
  | cons a t ih =>
      cases i with
      | zero => simp_all
      | succ n =>
          simp only [List.getElem?_cons_succ] at h
          simp [ih h]

/-! ### Invariant preservation -/

theorem poolWF_empty : PoolWF emptyPool := by
  constructor <;> simp [emptyPool]

theorem chunkWF_new : ChunkWF Chunk.new := by
  constructor <;> simp [Chunk.new]

theorem chunkFull_new : ChunkFull Chunk.new := by
  refine ⟨by simp [Chunk.new], by simp [Chunk.new, List.nodup_range], ?_⟩
  intro i
  simp only [Chunk.new, List.mem_range, List.getElem?_replicate]
  constructor
  · intro h; exact ⟨h, by simp [h]⟩
  · intro ⟨h, _⟩; exact h

theorem chunkFull_nonempty_iff {c : Chunk} (h : ChunkFull c) :
    c.free_indices ≠ [] ↔ none ∈ c.values := by
  constructor
  · intro hne
    cases hf : c.free_indices with
    | nil => exact absurd hf hne
    | cons i rest =>
        have hi : i ∈ c.free_indices := by simp [hf]
        rcases (h.memIff i).mp hi with ⟨_, hv⟩
        exact List.getElem?_mem hv
  · intro hmem
    rcases List.mem_iff_getElem?.mp hmem with ⟨j, hj⟩
    have hjlt : j < CHUNK_SIZE := by
      rcases List.getElem?_eq_some.mp hj with ⟨hlt, _⟩
      rw [h.len64] at hlt
      exact hlt
    have : j ∈ c.free_indices := (h.memIff j).mpr ⟨hjlt, hj⟩
    intro hnil
    rw [hnil] at this
    exact absurd this (List.not_mem_nil j)

theorem chunkFull_alloc {c : Chunk} {i : Nat} {rest : List Nat} (v : Value)
    (h : ChunkFull c) (hf : c.free_indices = i :: rest) :
    ChunkFull { values := c.values.set i (some v), free_indices := rest } ∧
      i < CHUNK_SIZE ∧ c.values[i]? = some none := by
  have hi : i ∈ c.free_indices := by simp [hf]
  rcases (h.memIff i).mp hi with ⟨hilt, hiv⟩
  have hnodup : rest.Nodup ∧ i ∉ rest := by
    have := h.nodup
    rw [hf] at this
    exact ⟨this.of_cons, (List.nodup_cons.mp this).1⟩
  refine ⟨⟨by simp [h.len64], hnodup.1, ?_⟩, hilt, hiv⟩
  intro j
  by_cases hji : j = i
  · subst hji
    simp only [List.getElem?_set_self (by rw [h.len64]; exact hilt)]
    constructor
    · intro hj; exact absurd hj hnodup.2
    · intro ⟨_, hj⟩; cases hj
  · have hj1 : j ∈ rest ↔ j ∈ c.free_indices := by
      rw [hf]; simp [List.mem_cons, hji]
    rw [hj1, h.memIff j, List.getElem?_set_ne (fun h => hji h.symm)]

theorem chunkFull_dealloc {c : Chunk} {i : Nat} {w : Value}
    (h : ChunkFull c) (hv : c.values[i]? = some (some w)) :
    ChunkFull (c.deallocate i) ∧ i ∉ c.free_indices := by
  have hilt : i < CHUNK_SIZE := by
    rcases List.getElem?_eq_some.mp hv with ⟨hlt, _⟩
    rw [h.len64] at hlt
    exact hlt
  have hnotmem : i ∉ c.free_indices := by
    intro hmem
    rcases (h.memIff i).mp hmem with ⟨_, hnone⟩
    rw [hv] at hnone
    cases hnone
  refine ⟨?_, hnotmem⟩
  rw [Chunk.deallocate, if_pos hilt]
  refine ⟨by simp [h.len64], ?_, ?_⟩
  · rw [List.nodup_append]
    exact ⟨h.nodup, List.nodup_singleton i, by
      intro a ha hb
      rw [List.mem_singleton] at hb
      subst hb
      exact hnotmem ha⟩
  · intro j
    by_cases hji : j = i
    · subst hji
      constructor
      · intro _
        exact ⟨hilt, List.getElem?_set_self (by rw [h.len64]; exact hilt)⟩
      · intro _
        simp
    · simp only [List.mem_append, List.mem_singleton, hji, or_false]
      rw [h.memIff j, List.getElem?_set_ne (fun h => hji h.symm)]

theorem chunkWF_alloc {c : Chunk} (v : Value) (h : ChunkWF c) :
    ChunkWF (c.allocate v).2 := by
  cases hf : c.free_indices with
  | nil => simpa [Chunk.allocate, hf] using h
  | cons i rest =>
      refine ⟨?_, ?_⟩
      · simp [Chunk.allocate, hf, h.len64]
      · simp only [Chunk.allocate, hf]
        intro j hj
        exact h.inRange j (by rw [hf]; exact List.mem_cons_of_mem i hj)

theorem chunkWF_dealloc {c : Chunk} (i : Nat) (h : ChunkWF c) :
    ChunkWF (c.deallocate i) := by
  by_cases hi : i < CHUNK_SIZE
  · rw [Chunk.deallocate, if_pos hi]
    refine ⟨by simp [h.len64], ?_⟩
    intro j hj
    rcases List.mem_append.mp hj with hj | hj
    · exact h.inRange j hj
    · rw [List.mem_singleton] at hj; subst hj; exact hi
  · rwa [Chunk.deallocate, if_neg hi]

theorem has_free_slot_iff {c : Chunk} :
    c.has_free_slot = true ↔ c.free_indices ≠ [] := by
  cases h : c.free_indices <;> simp [Chunk.has_free_slot, h]

theorem poolWF_dealloc (ci vi : Nat) {s : PoolState} (h : PoolWF s) :
    PoolWF (deallocate_value ci vi s) := by
  cases hg : s.chunks[ci]? with
  | none => simpa [deallocate_value, hg] using h
  | some chunk =>
      have hci : ci < s.chunks.length := (List.getElem?_eq_some.mp hg).1
      have hmemchunk : chunk ∈ s.chunks := List.getElem?_mem hg
      simp only [deallocate_value, hg]
      by_cases hvi : vi < CHUNK_SIZE
      · have hd : chunk.deallocate vi =
            { values := chunk.values.set vi none
              free_indices := chunk.free_indices ++ [vi] } := by
          rw [Chunk.deallocate, if_pos hvi]
        have hfs : (chunk.deallocate vi).has_free_slot = true := by
          rw [hd]; simp [Chunk.has_free_slot]
        simp only [hfs, if_true]
        constructor
        · intro cj hcj
          rw [List.length_set]
          rcases mem_bsInsert.mp hcj with rfl | hcj
          · exact hci
          · exact h.bounded cj hcj
        · exact bsInsert_pairwise h.sorted
        · intro c hc
          rcases List.mem_or_eq_of_mem_set hc with hc | rfl
          · exact h.wf c hc
          · exact chunkWF_dealloc vi (h.wf chunk hmemchunk)
        · intro cj c hcj hc
          by_cases hji : cj = ci
          · subst hji
            rw [List.getElem?_set_self hci] at hc
            cases hc
            rw [hd]
            simp
          · rw [List.getElem?_set_ne (fun hh => hji hh.symm)] at hc
            rcases mem_bsInsert.mp hcj with rfl | hcj
            · exact absurd rfl hji
            · exact h.memNonempty cj c hcj hc
        · intro cj c hc hne
          by_cases hji : cj = ci
          · subst hji
            exact mem_bsInsert.mpr (Or.inl rfl)
          · rw [List.getElem?_set_ne (fun hh => hji hh.symm)] at hc
            exact mem_bsInsert.mpr (Or.inr (h.nonemptyMem cj c hc hne))
      · have hd : chunk.deallocate vi = chunk := by
          rw [Chunk.deallocate, if_neg hvi]
        rw [hd, list_set_self hg]
        cases hfs : chunk.has_free_slot with
        | false => simpa [hfs] using h
        | true =>
            have hcifree : ci ∈ s.free_chunks :=
              h.nonemptyMem ci chunk hg (has_free_slot_iff.mp hfs)
            simpa [hfs, bsInsert_of_mem h.sorted hcifree] using h

theorem mkFresh_wf {s : PoolState} (h : PoolWF s) (hfc : s.free_chunks = []) :
    PoolWF { chunks := s.chunks ++ [Chunk.new]
             free_chunks := [s.chunks.length] } := by
  constructor
  · intro ci hci
    rw [List.mem_singleton] at hci
    subst hci
    rw [List.length_append]
    have h1 : ([Chunk.new] : List Chunk).length = 1 := rfl
    omega
  · simp
  · intro c hc
    rcases List.mem_append.mp hc with hc | hc
    · exact h.wf c hc
    · rw [List.mem_singleton] at hc; subst hc; exact chunkWF_new
  · intro ci c hci hc
    rw [List.mem_singleton] at hci
    subst hci
    rw [List.getElem?_concat_length] at hc
    cases hc
    simp [Chunk.new, CHUNK_SIZE, List.range_eq_nil]
  · intro ci c hc hne
    by_cases hci : ci < s.chunks.length
    · rw [List.getElem?_append, if_pos hci] at hc
      exact absurd (h.nonemptyMem ci c hc hne)
        (by rw [hfc]; exact List.not_mem_nil ci)
    · have hge := Nat.le_of_not_lt hci
      rw [List.getElem?_append_right hge] at hc
      have hlt1 : ci - s.chunks.length < 1 := by
        have := (List.getElem?_eq_some.mp hc).1
        simpa using this
      have : ci = s.chunks.length := by omega
      subst this
      simp

theorem allocFrom_wf {s : PoolState} {ci : Nat} {v : Value} {r : Nat × Nat}
    {s' : PoolState} (h : PoolWF s) (hci : ci ∈ s.free_chunks)
    (heq : allocFrom s ci v = some (r, s')) : PoolWF s' := by
  have hlt := h.bounded ci hci
  obtain ⟨chunk, hg⟩ : ∃ c, s.chunks[ci]? = some c :=
    ⟨_, List.getElem?_eq_getElem hlt⟩
  have hmemchunk : chunk ∈ s.chunks := List.getElem?_mem hg
  have hne := h.memNonempty ci chunk hci hg
  cases hf : chunk.free_indices with
  | nil => exact absurd hf hne
  | cons i rest =>
      simp only [allocFrom, hg, Chunk.allocate, hf, Option.some.injEq,
        Prod.mk.injEq] at heq
      obtain ⟨-, rfl⟩ := heq
      have hwf' : ∀ c, c ∈ s.chunks.set ci
          { values := chunk.values.set i (some v), free_indices := rest } →
          ChunkWF c := by
        intro c hc
        rcases List.mem_or_eq_of_mem_set hc with hc | rfl
        · exact h.wf c hc
        · refine ⟨by simp [(h.wf chunk hmemchunk).len64], ?_⟩
          intro j hj
          exact (h.wf chunk hmemchunk).inRange j
            (by rw [hf]; exact List.mem_cons_of_mem i hj)
      cases hrest : rest with
      | nil =>
          simp only [hrest, Chunk.has_free_slot, List.isEmpty_nil, Bool.not_true,
            Bool.false_eq_true, if_false]
          constructor
          · intro cj hcj
            rw [List.length_set]
            exact h.bounded cj (mem_bsRemove.mp hcj).1
          · exact bsRemove_pairwise h.sorted
          · rw [hrest] at hwf'
            exact hwf'
          · intro cj c hcj hc
            rcases mem_bsRemove.mp hcj with ⟨hcj, hne'⟩
            rw [List.getElem?_set_ne (fun hh => hne' hh.symm)] at hc
            exact h.memNonempty cj c hcj hc
          · intro cj c hc hnec
            by_cases hji : cj = ci
            · subst hji
              rw [List.getElem?_set_self hlt] at hc
              cases hc
              exact absurd rfl hnec
            · rw [List.getElem?_set_ne (fun hh => hji hh.symm)] at hc
              exact mem_bsRemove.mpr ⟨h.nonemptyMem cj c hc hnec, hji⟩
      | cons r1 rs =>
          simp only [hrest, Chunk.has_free_slot, List.isEmpty_cons, Bool.not_false,
            if_true]
          constructor
          · intro cj hcj
            rw [List.length_set]
            exact h.bounded cj hcj
          · exact h.sorted
          · rw [hrest] at hwf'
            exact hwf'
          · intro cj c hcj hc
            by_cases hji : cj = ci
            · subst hji
              rw [List.getElem?_set_self hlt] at hc
              cases hc
              simp
            · rw [List.getElem?_set_ne (fun hh => hji hh.symm)] at hc
              exact h.memNonempty cj c hcj hc
          · intro cj c hc hnec
            by_cases hji : cj = ci
            · subst hji; exact hci
            · rw [List.getElem?_set_ne (fun hh => hji hh.symm)] at hc
              exact h.nonemptyMem cj c hc hnec

theorem alloc_wf {s : PoolState} {v : Value} {h0 : Nat × Nat} {s' : PoolState}
    (h : PoolWF s) (heq : allocate_value v s = some (h0, s')) : PoolWF s' := by
  cases hfc : s.free_chunks with
  | cons ci t =>
      simp only [allocate_value, hfc, List.head?_cons] at heq
      exact allocFrom_wf h (by rw [hfc]; exact List.mem_cons_self ci t) heq
  | nil =>
      simp only [allocate_value, hfc, List.head?_nil, bsInsert] at heq
      exact allocFrom_wf (mkFresh_wf h hfc) (List.mem_singleton.mpr rfl) heq

theorem alloc_isSome {s : PoolState} (h : PoolWF s) (v : Value) :
    (allocate_value v s).isSome = true := by
  cases hfc : s.free_chunks with
  | cons ci t =>
      have hci : ci ∈ s.free_chunks := by
        rw [hfc]; exact List.mem_cons_self ci t
      have hlt := h.bounded ci hci
      obtain ⟨chunk, hg⟩ : ∃ c, s.chunks[ci]? = some c :=
        ⟨_, List.getElem?_eq_getElem hlt⟩
      have hne := h.memNonempty ci chunk hci hg
      cases hf : chunk.free_indices with
      | nil => exact absurd hf hne
      | cons i rest =>
          simp [allocate_value, hfc, allocFrom, hg, Chunk.allocate, hf]
  | nil =>
      simp only [allocate_value, hfc, List.head?_nil, bsInsert, allocFrom]
      rw [List.getElem?_concat_length]
      cases hf : Chunk.new.free_indices with
      | nil =>
          exact absurd hf (by simp [Chunk.new, CHUNK_SIZE, List.range_eq_nil])
      | cons i rest => simp [Chunk.allocate, hf]

theorem occupiedAtB_eq_true {s : PoolState} {ci vi : Nat} :
    occupiedAtB s ci vi = true ↔ ∃ w, slotAt s ci vi = some (some w) := by
  unfold occupiedAtB
  cases h : slotAt s ci vi with
  | none => simp
  | some o => cases o <;> simp

theorem slotAt_eq {s : PoolState} {ci : Nat} (vi : Nat) {c : Chunk}
    (hg : s.chunks[ci]? = some c) : slotAt s ci vi = c.values[vi]? := by
  simp [slotAt, hg]

theorem occupiedAtB_append_new (cs : List Chunk) (F G : List Nat) (cj vj : Nat) :
    occupiedAtB { chunks := cs ++ [Chunk.new], free_chunks := F } cj vj =
      occupiedAtB { chunks := cs, free_chunks := G } cj vj := by
  unfold occupiedAtB slotAt
  by_cases h : cj < cs.length
  · rw [List.getElem?_append, if_pos h]
  · rw [List.getElem?_append, if_neg h]
    have hr : cs[cj]? = none := List.getElem?_eq_none (Nat.le_of_not_lt h)
    rw [hr]
    cases h2 : ([Chunk.new] : List Chunk)[cj - cs.length]? with
    | none => rfl
    | some c =>
        have hk : cj - cs.length = 0 := by
          have hx := (List.getElem?_eq_some.mp h2).1
          simp at hx
          omega
        rw [hk, List.getElem?_cons_zero] at h2
        cases h2
        by_cases hv : vj < CHUNK_SIZE <;>
          simp [Chunk.new, List.getElem?_replicate, hv]

theorem poolFull_empty : PoolFull emptyPool := by
  refine ⟨poolWF_empty, ?_⟩
  intro ci c hc
  simp [emptyPool] at hc

theorem allocFrom_full {s : PoolState} {ci : Nat} {v : Value} {r : Nat × Nat}
    {s' : PoolState} (h : PoolFull s) (hci : ci ∈ s.free_chunks)
    (heq : allocFrom s ci v = some (r, s')) :
    PoolFull s' ∧ r.1 = ci ∧ occupiedAtB s r.1 r.2 = false ∧
      occupiedAtB s' r.1 r.2 = true ∧
      (∀ cj vj, occupiedAtB s cj vj = true → occupiedAtB s' cj vj = true) := by
  have hwf := allocFrom_wf h.wf hci heq
  have hlt := h.wf.bounded ci hci
  obtain ⟨chunk, hg⟩ : ∃ c, s.chunks[ci]? = some c :=
    ⟨_, List.getElem?_eq_getElem hlt⟩
  have hcf := h.full ci chunk hg
  have hne := h.wf.memNonempty ci chunk hci hg
  cases hf : chunk.free_indices with
  | nil => exact absurd hf hne
  | cons i rest =>
      rcases chunkFull_alloc v hcf hf with ⟨hcf', hilt, hiv⟩
      simp only [allocFrom, hg, Chunk.allocate, hf, Option.some.injEq,
        Prod.mk.injEq] at heq
      obtain ⟨hr, rfl⟩ := heq
      subst hr
      have hgset : ∀ X : List Nat,
          ({ chunks := s.chunks.set ci
               { values := chunk.values.set i (some v), free_indices := rest }
             free_chunks := X } : PoolState).chunks[ci]? =
            some { values := chunk.values.set i (some v), free_indices := rest } :=
        fun _ => List.getElem?_set_self hlt
      refine ⟨⟨hwf, ?_⟩, rfl, ?_, ?_, ?_⟩
      · intro cj c hc
        by_cases hji : cj = ci
        · subst hji
          rw [List.getElem?_set_self hlt] at hc
          cases hc
          exact hcf'
        · rw [List.getElem?_set_ne (fun hh => hji hh.symm)] at hc
          exact h.full cj c hc
      · unfold occupiedAtB
        rw [slotAt_eq i hg, hiv]
        rfl
      · unfold occupiedAtB
        rw [slotAt_eq i (hgset _)]
        have : (chunk.values.set i (some v))[i]? = some (some v) :=
          List.getElem?_set_self (by rw [hcf.len64]; exact hilt)
        rw [this]
        rfl
      · intro cj vj hocc
        rcases occupiedAtB_eq_true.mp hocc with ⟨w, hw⟩
        apply occupiedAtB_eq_true.mpr
        by_cases hji : cj = ci
        · subst hji
          rw [slotAt_eq vj hg] at hw
          have hvi : vj ≠ i := by
            intro hh
            subst hh
            rw [hiv] at hw
            cases hw
          refine ⟨w, ?_⟩
          rw [slotAt_eq vj (hgset _), List.getElem?_set_ne (fun hh => hvi hh.symm)]
          exact hw
        · refine ⟨w, ?_⟩
          unfold slotAt at hw ⊢
          rw [List.getElem?_set_ne (fun hh => hji hh.symm)]
          exact hw

theorem alloc_full {s : PoolState} {v : Value} {hd : Nat × Nat} {s' : PoolState}
    (h : PoolFull s) (heq : allocate_value v s = some (hd, s')) :
    PoolFull s' ∧ occupiedAtB s hd.1 hd.2 = false ∧
      occupiedAtB s' hd.1 hd.2 = true ∧
      (∀ cj vj, occupiedAtB s cj vj = true → occupiedAtB s' cj vj = true) := by
  cases hfc : s.free_chunks with
  | cons ci t =>
      simp only [allocate_value, hfc, List.head?_cons] at heq
      rcases allocFrom_full h (by rw [hfc]; exact List.mem_cons_self ci t) heq
        with ⟨hfull, -, h2, h3, h4⟩
      exact ⟨hfull, h2, h3, h4⟩
  | nil =>
      simp only [allocate_value, hfc, List.head?_nil, bsInsert] at heq
      have h1full : PoolFull
          { chunks := s.chunks ++ [Chunk.new]
            free_chunks := [s.chunks.length] } := by
        refine ⟨mkFresh_wf h.wf hfc, ?_⟩
        intro cj c hc
        by_cases hcj : cj < s.chunks.length
        · rw [List.getElem?_append, if_pos hcj] at hc
          exact h.full cj c hc
        · rw [List.getElem?_append, if_neg hcj] at hc
          have hk : cj - s.chunks.length = 0 := by
            have hx := (List.getElem?_eq_some.mp hc).1
            simp at hx
            omega
          rw [hk, List.getElem?_cons_zero] at hc
          cases hc
          exact chunkFull_new
      rcases allocFrom_full h1full (List.mem_singleton.mpr rfl) heq
        with ⟨hfull, -, h2, h3, h4⟩
      have hbr := occupiedAtB_append_new s.chunks [s.chunks.length] s.free_chunks
      refine ⟨hfull, ?_, h3, ?_⟩
      · rw [hbr hd.1 hd.2] at h2
        exact h2
      · intro cj vj hocc
        apply h4 cj vj
        rw [hbr cj vj]
        exact hocc

theorem dealloc_full {s : PoolState} {ci vi : Nat} (h : PoolFull s)
    (hocc : occupiedAtB s ci vi = true) :
    PoolFull (deallocate_value ci vi s) := by
  refine ⟨poolWF_dealloc ci vi h.wf, ?_⟩
  rcases occupiedAtB_eq_true.mp hocc with ⟨w, hw⟩
  unfold slotAt at hw
  cases hg : s.chunks[ci]? with
  | none => rw [hg] at hw; cases hw
  | some chunk =>
      rw [hg] at hw
      simp only [Option.some_bind] at hw
      have hci : ci < s.chunks.length := (List.getElem?_eq_some.mp hg).1
      rcases chunkFull_dealloc (h.full ci chunk hg) hw with ⟨hcf', -⟩
      intro cj c hc
      simp only [deallocate_value, hg] at hc
      by_cases hji : cj = ci
      · subst hji
        rw [List.getElem?_set_self hci] at hc
        cases hc
        exact hcf'
      · rw [List.getElem?_set_ne (fun hh => hji hh.symm)] at hc
        exact h.full cj c hc

theorem validReach_full {s : PoolState} (h : ValidReach s) : PoolFull s := by
  induction h with
  | init => exact poolFull_empty
  | alloc hr heq ih => exact (alloc_full ih heq).1
  | dealloc ci vi hr hocc ih => exact dealloc_full ih hocc

theorem allocMany_full {v : Value} : ∀ (n : Nat) {s : PoolState}
    {hs : List (Nat × Nat)} {s' : PoolState},
    PoolFull s → allocMany n v s = some (hs, s') →
    PoolFull s' ∧ hs.Nodup ∧
      (∀ p ∈ hs, occupiedAtB s p.1 p.2 = false) ∧
      (∀ p ∈ hs, occupiedAtB s' p.1 p.2 = true) ∧
      (∀ cj vj, occupiedAtB s cj vj = true → occupiedAtB s' cj vj = true) := by
  intro n
  induction n with
  | zero =>
      intro s hs s' h heq
      simp only [allocMany, Option.some.injEq, Prod.mk.injEq] at heq
      obtain ⟨rfl, rfl⟩ := heq
      exact ⟨h, List.nodup_nil, by simp, by simp, fun _ _ hh => hh⟩
  | succ n ih =>
      intro s hs s' h heq
      simp only [allocMany] at heq
      cases h1 : allocate_value v s with
      | none => rw [h1] at heq; cases heq
      | some p =>
          rw [h1] at heq
          obtain ⟨hd, s1⟩ := p
          simp only [Option.some_bind] at heq
          cases h2 : allocMany n v s1 with
          | none => rw [h2] at heq; cases heq
          | some q =>
              rw [h2] at heq
              obtain ⟨hs1, s2⟩ := q
              simp only [Option.some_bind, Option.some.injEq, Prod.mk.injEq] at heq
              obtain ⟨rfl, rfl⟩ := heq
              rcases alloc_full h h1 with ⟨hfull1, hoccF, hoccT, hmono⟩
              rcases ih hfull1 h2 with ⟨hfull2, hnodup, hfresh, hfinal, hmono2⟩
              refine ⟨hfull2, ?_, ?_, ?_,
                fun cj vj hh => hmono2 cj vj (hmono cj vj hh)⟩
              · rw [List.nodup_cons]
                refine ⟨?_, hnodup⟩
                intro hmem
                exact absurd (hfresh hd hmem) (by rw [hoccT]; simp)
              · intro p hp
                rcases List.mem_cons.mp hp with rfl | hp
                · exact hoccF
                · cases hob : occupiedAtB s p.1 p.2 with
                  | false => rfl
                  | true =>
                      exact absurd (hmono p.1 p.2 hob)
                        (by rw [hfresh p hp]; simp)
              · intro p hp
                rcases List.mem_cons.mp hp with rfl | hp
                · exact hmono2 p.1 p.2 hoccT
                · exact hfinal p hp

theorem reach_wf {s : PoolState} (h : Reach s) : PoolWF s := by
  induction h with
  | init => exact poolWF_empty
  | alloc hr heq ih => exact alloc_wf ih heq
  | dealloc ci vi hr ih => exact poolWF_dealloc ci vi ih

theorem reach_allocMany {v : Value} : ∀ (n : Nat) {s s' : PoolState}
    {hs : List (Nat × Nat)}, Reach s → allocMany n v s = some (hs, s') →
    Reach s' := by
  intro n
  induction n with
  | zero =>
      intro s s' hs h heq
      simp only [allocMany, Option.some.injEq, Prod.mk.injEq] at heq
      obtain ⟨-, rfl⟩ := heq
      exact h
  | succ n ih =>
      intro s s' hs h heq
      simp only [allocMany] at heq
      cases h1 : allocate_value v s with
      | none => rw [h1] at heq; cases heq
      | some p =>
          rw [h1] at heq
          simp only [Option.some_bind] at heq
          cases h2 : allocMany n v p.2 with
          | none => rw [h2] at heq; cases heq
          | some q =>
              rw [h2] at heq
              simp only [Option.some_bind, Option.some.injEq, Prod.mk.injEq] at heq
              obtain ⟨-, rfl⟩ := heq
              exact ih (Reach.alloc h h1) h2

theorem chunkFull_alloc_any {c : Chunk} (v : Value) (h : ChunkFull c) :
    ChunkFull (c.allocate v).2 := by
  cases hf : c.free_indices with
  | nil => simpa [Chunk.allocate, hf] using h
  | cons i rest =>
      have h1 := (chunkFull_alloc v h hf).1
      simpa [Chunk.allocate, hf] using h1

theorem validChunkReach_full {c : Chunk} (h : ValidChunkReach c) : ChunkFull c := by
  induction h with
  | init => exact chunkFull_new
  | alloc v hr ih => exact chunkFull_alloc_any v ih
  | dealloc hr hv ih => exact (chunkFull_dealloc ih hv).1

theorem length_filter_add_length_filter_not {α : Type} (l : List α) (p : α → Bool) :
    (l.filter p).length + (l.filter (fun a => !p a)).length = l.length := by
  induction l with
  | nil => rfl
  | cons a t ih =>
      cases hpa : p a <;> simp [List.filter_cons, hpa] <;> omega

theorem chunkFull_count {c : Chunk} (h : ChunkFull c) :
    c.occupiedCount = CHUNK_SIZE - c.free_indices.length := by
  have hperm : c.free_indices.Perm ((List.range CHUNK_SIZE).filter
      (fun i => (c.values.getD i none).isNone)) := by
    apply (List.perm_ext_iff_of_nodup h.nodup
      (List.Nodup.filter _ (List.nodup_range CHUNK_SIZE))).mpr
    intro j
    rw [h.memIff j, List.mem_filter, List.mem_range]
    constructor
    · intro ⟨hj, hv⟩
      refine ⟨hj, ?_⟩
      rw [List.getD_eq_getElem?_getD, hv]
      rfl
    · intro ⟨hj, hv⟩
      refine ⟨hj, ?_⟩
      obtain ⟨o, hg⟩ : ∃ o, c.values[j]? = some o :=
        ⟨_, List.getElem?_eq_getElem (by rw [h.len64]; exact hj)⟩
      rw [List.getD_eq_getElem?_getD, hg] at hv
      have ho : o = none := Option.isNone_iff_eq_none.mp hv
      subst ho
      exact hg
  have hlen := hperm.length_eq
  have hng : (List.range CHUNK_SIZE).filter
        (fun i => !(c.values.getD i none).isSome) =
      (List.range CHUNK_SIZE).filter (fun i => (c.values.getD i none).isNone) := by
    apply List.filter_congr
    intro i _
    cases c.values.getD i none <;> rfl
  have hsplit := length_filter_add_length_filter_not (List.range CHUNK_SIZE)
    (fun i => (c.values.getD i none).isSome)
  rw [hng] at hsplit
  rw [List.length_range] at hsplit
  unfold Chunk.occupiedCount
  omega

theorem allocList_fst (v : Value) : ∀ (n : Nat) (c : Chunk),
    (c.allocList n v).1 = c.free_indices.take n := by
  intro n
  induction n with
  | zero => intro c; rfl
  | succ n ih =>
      intro c
      cases hf : c.free_indices with
      | nil => simp [Chunk.allocList, Chunk.allocate, hf]
      | cons i rest => simp [Chunk.allocList, Chunk.allocate, hf, ih]

theorem foldl_min_eq : ∀ {t : List Nat} {a : Nat}, (∀ x ∈ t, a ≤ x) →
    t.foldl min a = a := by
  intro t
  induction t with
  | nil => intro a _; rfl
  | cons b t' ih =>
      intro a h
      simp only [List.foldl_cons]
      rw [Nat.min_eq_left (h b (List.mem_cons_self b t'))]
      exact ih (fun x hx => h x (List.mem_cons_of_mem b hx))

theorem sorted_head_eq_min {l : List Nat} (h : l.Pairwise (· < ·)) :
    l.head? = l.min? := by
  cases l with
  | nil => rfl
  | cons a t =>
      rcases List.pairwise_cons.mp h with ⟨ha, -⟩
      have hfold : t.foldl min a = a :=
        foldl_min_eq (fun x hx => Nat.le_of_lt (ha x hx))
      show some a = (a :: t).min?
      rw [List.min?_cons', hfold]

theorem reach_poolA : Reach poolA :=
  Reach.alloc Reach.init
    (show allocate_value 0 emptyPool = some ((0, 0), poolA) by decide)

theorem reach_c1state : Reach c1state :=
  Reach.dealloc 0 0 (Reach.dealloc 0 0 reach_poolA)

theorem reach_c2state : Reach c2state :=
  reach_allocMany 64 reach_c1state
    (show allocMany 64 0 c1state = some (c2handles, c2state) by decide)

/-! ### The claims -/

/-- C1, counterexample.  The claim quantifies over states reachable with
arbitrary (stale or repeated) deallocations.  From the reachable state
`c1state` — obtained by one allocation and a double free of handle `(0, 0)` —
65 consecutive `allocate_value` calls return the handle `(0, 0)` twice: the
returned handles are not pairwise distinct, and the second `(0, 0)` aliases
the slot occupied by the first. -/
theorem handle_uniqueness_fails_after_double_free :
    Reach c1state ∧
    (allocMany 65 0 c1state).map Prod.fst =
      some ((((List.range 63).map fun i => ((0, i + 1) : Nat × Nat))) ++
        [(0, 0), (0, 0)]) ∧
    ¬ ((((List.range 63).map fun i => ((0, i + 1) : Nat × Nat))) ++
        [(0, 0), (0, 0)]).Nodup :=
  ⟨reach_c1state, by decide, by decide⟩

/-- C1, amended: restricted to states reachable under the handle protocol
(each `deallocate_value` hits a currently occupied slot), every sequence of
`allocate_value` calls without intervening deallocation returns pairwise
distinct handles, none of which aliases a slot that was live at the start. -/
theorem handle_uniqueness_of_validReach (n : Nat) (v : Value) (s : PoolState)
    (hs : List (Nat × Nat)) (s' : PoolState) (h1 : ValidReach s)
    (h2 : allocMany n v s = some (hs, s')) :
    hs.Nodup ∧ noneLiveIn s hs = true := by
  rcases allocMany_full n (validReach_full h1) h2 with ⟨-, hnodup, hfresh, -, -⟩
  refine ⟨hnodup, ?_⟩
  apply List.all_eq_true.mpr
  intro p hp
  rw [hfresh p hp]
  rfl

/-- Witness for C1: two allocations from the empty pool. -/
theorem handle_uniqueness_of_validReach_witness :
    ([((0 : Nat), (0 : Nat)), (0, 1)].Nodup ∧
      noneLiveIn emptyPool [(0, 0), (0, 1)] = true) :=
  handle_uniqueness_of_validReach 2 0 emptyPool [(0, 0), (0, 1)] c1wit_s
    ValidReach.init (by decide)

/-- C2, counterexample.  After the double free of `(0, 0)` and 64 further
allocations, position 0 is a member of the Free-Chunk Index although chunk 0
has no empty slot. -/
theorem free_chunk_index_inconsistent_after_double_free :
    Reach c2state ∧ 0 ∈ c2state.free_chunks ∧ chunkHasEmptyB c2state 0 = false :=
  ⟨reach_c2state, by decide, by decide⟩

/-- C2, amended: restricted to states reachable under the handle protocol, a
chunk position is a member of the Free-Chunk Index iff the chunk at that
position exists and has at least one empty slot. -/
theorem free_chunk_index_consistency_of_validReach (s : PoolState) (ci : Nat)
    (h : ValidReach s) :
    ci ∈ s.free_chunks ↔ chunkHasEmptyB s ci = true := by
  have hf := validReach_full h
  constructor
  · intro hci
    have hlt := hf.wf.bounded ci hci
    obtain ⟨c, hg⟩ : ∃ c, s.chunks[ci]? = some c :=
      ⟨_, List.getElem?_eq_getElem hlt⟩
    have hne := hf.wf.memNonempty ci c hci hg
    have hmem : none ∈ c.values := (chunkFull_nonempty_iff (hf.full ci c hg)).mp hne
    unfold chunkHasEmptyB
    rw [hg]
    exact List.any_eq_true.mpr ⟨none, hmem, rfl⟩
  · intro hb
    unfold chunkHasEmptyB at hb
    cases hg : s.chunks[ci]? with
    | none => rw [hg] at hb; cases hb
    | some c =>
        rw [hg] at hb
        rcases List.any_eq_true.mp hb with ⟨o, ho, hno⟩
        have ho' : o = none := Option.isNone_iff_eq_none.mp hno
        subst ho'
        exact hf.wf.nonemptyMem ci c hg
          ((chunkFull_nonempty_iff (hf.full ci c hg)).mpr ho)

/-- Witness for C2: the empty pool, position 0 (both sides false). -/
theorem free_chunk_index_consistency_of_validReach_witness :
    ((0 : Nat) ∈ emptyPool.free_chunks ↔ chunkHasEmptyB emptyPool 0 = true) :=
  free_chunk_index_consistency_of_validReach emptyPool 0 ValidReach.init

/-- C3: from every reachable state — arbitrary, even protocol-violating,
deallocations included — `allocate_value` returns a handle: the indexing of
the chunk pool and the `unwrap` of the chunk-level allocation (the two
modelled panic branches) are never hit. -/
theorem allocate_value_always_succeeds (s : PoolState) (v : Value)
    (h : Reach s) : (allocate_value v s).isSome = true :=
  alloc_isSome (reach_wf h) v

/-- Witness for C3: allocation from the empty pool. -/
theorem allocate_value_always_succeeds_witness :
    (allocate_value 0 emptyPool).isSome = true :=
  allocate_value_always_succeeds emptyPool 0 Reach.init

/-- C4, counterexample.  The claim quantifies over arbitrary position
arguments to `Chunk::deallocate`.  Deallocating position 0 of a fresh chunk
(whose slot 0 is already empty and already queued) appends a duplicate: the
free queue then has two entries for position 0. -/
theorem chunk_invariant_fails_after_stale_deallocate :
    ChunkReach (Chunk.new.deallocate 0) ∧
      ¬ (Chunk.new.deallocate 0).free_indices.Nodup :=
  ⟨ChunkReach.dealloc 0 ChunkReach.init, by decide⟩

/-- C4, amended: in every chunk state reachable when `Chunk::deallocate` is
only applied to currently occupied positions, the free queue is duplicate
free, contains exactly the in-range positions whose slot is empty, and the
occupied-slot count is `CHUNK_SIZE` minus the queue length. -/
theorem chunk_invariant_of_validChunkReach (c : Chunk) (i : Nat)
    (h : ValidChunkReach c) :
    c.free_indices.Nodup ∧
      (i ∈ c.free_indices ↔ i < CHUNK_SIZE ∧ c.values[i]? = some none) ∧
      c.occupiedCount = CHUNK_SIZE - c.free_indices.length := by
  have hf := validChunkReach_full h
  exact ⟨hf.nodup, hf.memIff i, chunkFull_count hf⟩

/-- Witness for C4: the fresh chunk, position 0. -/
theorem chunk_invariant_of_validChunkReach_witness :
    (Chunk.new.free_indices.Nodup ∧
      (0 ∈ Chunk.new.free_indices ↔
        0 < CHUNK_SIZE ∧ Chunk.new.values[0]? = some none) ∧
      Chunk.new.occupiedCount = CHUNK_SIZE - Chunk.new.free_indices.length) :=
  chunk_invariant_of_validChunkReach Chunk.new 0 ValidChunkReach.init

/-- C5: the end-to-end scenario.  64 allocations from the empty pool return
`(0,0) … (0,63)` in order; the 65th creates a second chunk and returns
`(1,0)`, whose chunk position differs from all 64 earlier handles;
deallocating `(0,5)` puts chunk 0 back into the Free-Chunk Index; the next
allocation returns `(0,5)`. -/
theorem growth_scenario :
    allocMany 64 7 emptyPool = some ((List.range 64).map (fun i => (0, i)), scen64) ∧
    allocate_value 7 scen64 = some ((1, 0), scen65) ∧
    scen65.chunks.length = 2 ∧
    (((List.range 64).map (fun i => ((0, i) : Nat × Nat))).all
      fun p => p.1 != 1) = true ∧
    0 ∈ scen66.free_chunks ∧
    (allocate_value 7 scen66).map Prod.fst = some (0, 5) := by
  refine ⟨by decide, by decide, by decide, by decide, by decide, by decide⟩

/-- C6: `Chunk::allocate` returns the head of the free queue (`none` exactly
when the queue is empty, leaving the chunk unchanged), removes it from the
queue, and stores the value at that position. -/
theorem chunk_allocate_semantics (c : Chunk) (v : Value) :
    (c.allocate v).1 = c.free_indices.head? ∧
    (c.allocate v).2.free_indices = c.free_indices.tail ∧
    (c.allocate v).2.values =
      c.free_indices.head?.elim c.values (fun i => c.values.set i (some v)) := by
  cases hf : c.free_indices <;> simp [Chunk.allocate, hf]

/-- C7: FIFO reuse.  If the free queue lists `p1` before `p2` (`p1` was freed
first and both are currently free), then among the allocations that drain the
queue the one returning `p1` comes strictly before the one returning `p2`. -/
theorem fifo_reuse_order (c : Chunk) (v : Value) (A B C : List Nat)
    (p1 p2 : Nat) (h : c.free_indices = A ++ p1 :: (B ++ p2 :: C)) :
    A.length < A.length + B.length + 1 ∧
    (c.allocList (A.length + B.length + 2) v).1[A.length]? = some p1 ∧
    (c.allocList (A.length + B.length + 2) v).1[A.length + B.length + 1]? =
      some p2 := by
  have h1 := allocList_fst v (A.length + B.length + 2) c
  rw [h] at h1
  refine ⟨by omega, ?_, ?_⟩
  · rw [h1, List.getElem?_take, if_pos (by omega),
      List.getElem?_append_right (Nat.le_refl _), Nat.sub_self]
    exact List.getElem?_cons_zero
  · rw [h1, List.getElem?_take, if_pos (by omega),
      List.getElem?_append_right (by omega)]
    have hidx : A.length + B.length + 1 - A.length = B.length + 1 := by omega
    rw [hidx, List.getElem?_cons_succ,
      List.getElem?_append_right (Nat.le_refl _), Nat.sub_self]
    exact List.getElem?_cons_zero

/-- Witness for C7: the fresh chunk with `p1 = 0`, `p2 = 1` at the head of the
queue. -/
theorem fifo_reuse_order_witness :
    (0 : Nat) < 0 + 0 + 1 ∧
    (Chunk.new.allocList (0 + 0 + 2) 5).1[(0 : Nat)]? = some 0 ∧
    (Chunk.new.allocList (0 + 0 + 2) 5).1[0 + 0 + 1]? = some 1 :=
  fifo_reuse_order Chunk.new 5 [] [] ((List.range 62).map fun i => i + 2) 0 1
    (by decide)

/-- C8: deallocating with an out-of-bounds chunk position, or (inside
`Chunk::deallocate`) an out-of-bounds slot position, raises nothing and
leaves the pool state — chunks, slots, free queues and Free-Chunk Index —
exactly unchanged. -/
theorem invalid_deallocate_noop (s : PoolState) (ci vi : Nat) (c : Chunk)
    (h1 : Reach s) (h2 : s.chunks.length ≤ ci ∨ CHUNK_SIZE ≤ vi) :
    deallocate_value ci vi s = s ∧ (CHUNK_SIZE ≤ vi → c.deallocate vi = c) := by
  have hwf := reach_wf h1
  constructor
  · rcases h2 with h2 | h2
    · have hg : s.chunks[ci]? = none := List.getElem?_eq_none h2
      simp [deallocate_value, hg]
    · cases hg : s.chunks[ci]? with
      | none => simp [deallocate_value, hg]
      | some chunk =>
          have hd : chunk.deallocate vi = chunk := by
            rw [Chunk.deallocate, if_neg (by omega)]
          simp only [deallocate_value, hg, hd, list_set_self hg]
          cases hfs : chunk.has_free_slot with
          | false => simp [hfs]
          | true =>
              have hci : ci ∈ s.free_chunks :=
                hwf.nonemptyMem ci chunk hg (has_free_slot_iff.mp hfs)
              simp [hfs, bsInsert_of_mem hwf.sorted hci]
  · intro hvi
    rw [Chunk.deallocate, if_neg (by omega)]

/-- Witness for C8: the empty pool with chunk position 5 and slot position 64. -/
theorem invalid_deallocate_noop_witness :
    (deallocate_value 5 64 emptyPool = emptyPool ∧
      Chunk.new.deallocate 64 = Chunk.new) :=
  ⟨(invalid_deallocate_noop emptyPool 5 64 Chunk.new Reach.init
      (Or.inl (by decide))).1,
    (invalid_deallocate_noop emptyPool 5 64 Chunk.new Reach.init
      (Or.inl (by decide))).2 (by decide)⟩

/-- C10: whenever the Free-Chunk Index is non-empty, `allocate_value` serves
the allocation from the smallest member of the index (the first position the
BitSet iterator yields) and creates no new chunk; with the chunk choice
fixed, the returned handle is a function of the pool state. -/
theorem allocate_picks_minimal_free_chunk (s : PoolState) (v : Value)
    (h1 : Reach s) (h2 : s.free_chunks ≠ []) :
    pickedChunk v s = s.free_chunks.min? ∧
    (allocate_value v s).map (fun r => r.2.chunks.length) =
      some s.chunks.length := by
  have hwf := reach_wf h1
  cases hfc : s.free_chunks with
  | nil => exact absurd hfc h2
  | cons ci t =>
      have hci : ci ∈ s.free_chunks := by
        rw [hfc]; exact List.mem_cons_self ci t
      have hlt := hwf.bounded ci hci
      obtain ⟨chunk, hg⟩ : ∃ c, s.chunks[ci]? = some c :=
        ⟨_, List.getElem?_eq_getElem hlt⟩
      have hne := hwf.memNonempty ci chunk hci hg
      cases hf : chunk.free_indices with
      | nil => exact absurd hf hne
      | cons i rest =>
          have hmin : (ci :: t).head? = (ci :: t).min? :=
            sorted_head_eq_min (hfc ▸ hwf.sorted)
          constructor
          · rw [← hmin]
            simp [pickedChunk, allocate_value, hfc, allocFrom, hg,
              Chunk.allocate, hf]
          · simp [allocate_value, hfc, allocFrom, hg, Chunk.allocate, hf,
              List.length_set]

/-- Witness for C10: the one-chunk pool `poolA`, whose index is `[0]`. -/
theorem allocate_picks_minimal_free_chunk_witness :
    (pickedChunk 0 poolA = poolA.free_chunks.min? ∧
      (allocate_value 0 poolA).map (fun r => r.2.chunks.length) =
        some poolA.chunks.length) :=
  allocate_picks_minimal_free_chunk poolA 0 reach_poolA (by decide)

end ChunkyQueue

namespace Python2RustTypes

theorem allocate_value_stores (v : Value) : ∀ (a : ArrState),
    (allocate_value v a).2[(allocate_value v a).1]? = some (v, true) := by
  intro a
  induction a with
  | nil => rfl
  | cons p rest ih =>
      obtain ⟨w, used⟩ := p
      cases used with
      | false => simp [allocate_value]
      | true => simp [allocate_value, List.getElem?_cons_succ, ih]

/-- C9, counterexample.  The input `2^31` is an integer value, yet
`handle_pyobject` does not return successfully: pyo3's `extract::<i32>`
overflows and the error propagates through `?`. -/
theorem handle_pyobject_overflow_on_large_int :
    handle_pyobject (PyObject.pyInt (2 ^ 31)) [] =
      Except.error PyErr.overflowError := by
  have hcond : ¬ fits_i32 2147483648 := by decide
  simp [handle_pyobject, extract_i32, hcond]

/-- C9, amended: `handle_pyobject` returns successfully iff the input is a
text value or an integer value fitting in the signed 32-bit range; on success
the returned index points at a used slot holding the mapped value — for text
the UTF-8 length cast to `i32` (the length itself whenever it is below
`2^31`), for a fitting integer the integer itself; a non-fitting integer
raises an overflow error and any other type raises the type error, in both
cases without allocating. -/
theorem handle_pyobject_dispatch (obj : PyObject) (a : ArrState) (n : Nat) :
    (handle_pyobject obj a).isOk = accepts obj ∧
    storedSlot obj a = (mappedValue obj).map (fun v => (v, true)) ∧
    (n < 2 ^ 31 → usize_as_i32 n = (n : Int)) ∧
    (obj = PyObject.other →
      handle_pyobject obj a = Except.error (PyErr.typeError "Unsupported type")) := by
  refine ⟨?_, ?_, ?_, ?_⟩
  · cases obj with
    | pyStr s => rfl
    | pyInt m =>
        by_cases hm : fits_i32 m
        · simp [handle_pyobject, extract_i32, accepts, hm, Except.isOk,
            Except.toBool]
        · simp [handle_pyobject, extract_i32, accepts, hm, Except.isOk,
            Except.toBool]
    | other => rfl
  · cases obj with
    | pyStr s =>
        simp [storedSlot, handle_pyobject, mappedValue, allocate_value_stores]
    | pyInt m =>
        by_cases hm : fits_i32 m
        · simp [storedSlot, handle_pyobject, extract_i32, mappedValue, hm,
            allocate_value_stores]
        · simp [storedSlot, handle_pyobject, extract_i32, mappedValue, hm]
    | other => rfl
  · intro hn
    have h1 : n % 2 ^ 32 = n := Nat.mod_eq_of_lt (by omega)
    unfold usize_as_i32
    rw [if_pos (by omega), h1]
  · intro h
    subst h
    rfl

/-- Witness for C9: the unsupported input with the small length 2. -/
theorem handle_pyobject_dispatch_witness :
    ((handle_pyobject PyObject.other []).isOk = accepts PyObject.other ∧
      storedSlot PyObject.other [] =
        (mappedValue PyObject.other).map (fun v => (v, true)) ∧
      usize_as_i32 2 = ((2 : Nat) : Int) ∧
      handle_pyobject PyObject.other [] =
        Except.error (PyErr.typeError "Unsupported type")) :=
  ⟨(handle_pyobject_dispatch PyObject.other [] 2).1,
    (handle_pyobject_dispatch PyObject.other [] 2).2.1,
    (handle_pyobject_dispatch PyObject.other [] 2).2.2.1 (by decide),
    (handle_pyobject_dispatch PyObject.other [] 2).2.2.2 rfl⟩

end Python2RustTypes
